import Mathlib

/-!
Verification of the text-layout and cursor-mapping engine of the `todui`
terminal todo application (`src/widget.rs`).

The engine consists of three pure functions over ASCII text:

* `tokenize_ascii` — splits one logical line into alternating runs of
  whitespace / non-whitespace characters, as half-open index ranges;
* `wrap_words` — word-wraps a text into physical lines for a
  `width × height` character grid (Rust `fn wrap_words`);
* `get_cursor_at` — maps an absolute character offset to an `(x, y)`
  screen cell (Rust `InputField::get_cursor_at`, `Wrap::Word` mode).

The embedding below models Rust strings as `List Char` (the engine is
specified for ASCII only, where byte indices and character indices agree),
`usize`/`u16` values as `Nat` with explicit wrap-around (release-mode,
i.e. wrapping, overflow semantics) where the source can overflow, and the
source's early `return`s as an `Except` value (`.error r` = the function
returned `r` early, `.ok s` = the loop finished normally in state `s`).
-/

/-- A logical or physical line of text, one `Char` per ASCII byte. -/
abbrev Line := List Char

/-- Number of values of `usize` (the target is 64-bit). -/
def USIZE : Nat := 2 ^ 64

/-- Number of values of `u16`. -/
def U16 : Nat := 65536

/-- Wrapping (release-mode) `u16` addition. -/
def wadd (a b : Nat) : Nat := (a + b) % U16

/-- Wrapping (release-mode) `u16` subtraction of `1`. -/
def wsub1 (a : Nat) : Nat := (a + (U16 - 1)) % U16

/-- Wrapping (release-mode) `usize` subtraction of `1`, used for the
source's `height - 1` where `height` comes from a `u16` cast (so the
only wrapping case is `height = 0`). -/
def usizeSub1 (h : Nat) : Nat := (h + (USIZE - 1)) % USIZE

/-- Rust `char::is_whitespace`, restricted to the ASCII range: space,
tab, line feed, vertical tab, form feed, carriage return. -/
def isWS (c : Char) : Bool :=
  c == ' ' || c == '\t' || c == '\n' || c == '\x0b' || c == '\x0c' || c == '\r'

/-- Whitespace class of the character at index `j` (`false` past the end). -/
def clsAt (cs : Line) (j : Nat) : Bool := isWS (cs.getD j ' ')

/-- The text is pure ASCII — the documented precondition of the engine
(`tokenize_ascii` panics on non-ASCII input). -/
def AsciiText (s : Line) : Prop := ∀ c ∈ s, c.toNat < 128

instance (s : Line) : Decidable (AsciiText s) := by
  unfold AsciiText; infer_instance

/-- The slice `raw_line[a..b]` of the Rust source (for `a ≤ b ≤ len`;
total like all Lean functions, clipping out-of-range indices). -/
def strSlice (raw : Line) (a b : Nat) : Line := (raw.drop a).take (b - a)

/-- Loop body of Rust `fn tokenize_ascii` (`for (i, c) in input.char_indices()`
followed by the final leftover push).  `total` is `input.len()`, `i` the
index of the head of `cs`, `start` the start of the current token, `inWs`
whether the current token is a whitespace run. -/
def tokenizeGo (total : Nat) : List Char → Nat → Nat → Bool → List (Nat × Nat)
  | [], _, start, _ => if start < total then [(start, total)] else []
  | c :: cs, i, start, inWs =>
    if isWS c ≠ inWs then (start, i) :: tokenizeGo total cs (i + 1) i (isWS c)
    else tokenizeGo total cs (i + 1) start inWs

/-- Rust `fn tokenize_ascii`: index ranges of the maximal whitespace /
non-whitespace runs of `input`, in order.  (The source's panic on
non-ASCII characters is a caller-contract violation; the claims below
quantify over ASCII text only, where indices are exact.) -/
def tokenize_ascii (input : Line) : List (Nat × Nat) :=
  tokenizeGo input.length input 0 0
    (match input.head? with
     | some c => isWS c
     | none => false)

/-- `coversB p total ts` — the ranges `ts` tile `[p, total)` exactly: in
order, contiguous, non-overlapping and non-empty. -/
def coversB : Nat → Nat → List (Nat × Nat) → Bool
  | p, total, [] => p == total
  | p, total, (s, e) :: ts => s == p && decide (p < e) && coversB e total ts

/-- The `while pos < end` hard-split loop inside Rust `fn wrap_words`
(lines 117–134 of `widget.rs`): break an over-wide token `[pos, e)` into
`width`-sized chunks, each pushed as its own physical line, leaving a
short final remainder as the new pending line.  `fuel` only bounds the
recursion; `(e - pos) + height + 1` always suffices, because every
iteration either advances `pos` (when `width ≥ 1`) or pushes a line and
stops once `height` lines exist (when `width = 0`).  State mirrors the
source: `res` = `result`, `ls?` = `line_start`, `le` = `line_end`,
`cl` = `current_len`; `.error r` models `return r`. -/
def chunkLoop (raw : Line) (width height e : Nat) :
    Nat → Nat → List Line → Option Nat → Nat → Nat →
      Except (List Line) (List Line × Option Nat × Nat × Nat)
  | 0, _, res, _, _, _ => .error res
  | fuel + 1, pos, res, ls?, le, cl =>
    if pos < e then
      let chunkEnd := min (pos + width) e
      if pos + width ≤ e then
        let res1 := res ++ [strSlice raw pos chunkEnd]
        if height ≤ res1.length then .error res1
        else chunkLoop raw width height e fuel chunkEnd res1 none 0 cl
      else
        if height ≤ res.length then .error res
        else chunkLoop raw width height e fuel chunkEnd res (some pos) e (e - pos)
    else .ok (res, ls?, le, cl)

/-- The `for &(start, end) in &tokens` loop of Rust `fn wrap_words`
(lines 91–158 of `widget.rs`), processing the tokens of one logical line
`raw`.  Branches, in source order: the do-not-wrap-the-last-line
truncation, the over-wide-token hard split, the flush-and-start-new-line
case, and appending the token to the pending line.  `.error r` models an
early `return r` of the whole function. -/
def procTokens (raw : Line) (width height : Nat) :
    List (Nat × Nat) → List Line → Option Nat → Nat → Nat →
      Except (List Line) (List Line × Option Nat × Nat × Nat)
  | [], res, ls?, le, cl => .ok (res, ls?, le, cl)
  | (s, e) :: toks, res, ls?, le, cl =>
    let tokenLen := e - s
    if res.length = usizeSub1 height ∧ ¬ (cl + tokenLen ≤ width) then
      let ls := ls?.getD s
      .error (res ++ [strSlice raw ls (min (ls + width) e)])
    else if width < tokenLen then
      match ls? with
      | some ls =>
        let res1 := res ++ [strSlice raw ls le]
        if height ≤ res1.length then .error res1
        else
          match chunkLoop raw width height e ((e - s) + height + 1) s res1 (some ls) le cl with
          | .error r => .error r
          | .ok (res2, ls2, le2, cl2) => procTokens raw width height toks res2 ls2 le2 cl2
      | none =>
        match chunkLoop raw width height e ((e - s) + height + 1) s res none le cl with
        | .error r => .error r
        | .ok (res2, ls2, le2, cl2) => procTokens raw width height toks res2 ls2 le2 cl2
    else if ¬ (cl + tokenLen ≤ width) then
      match ls? with
      | some ls =>
        let res1 := res ++ [strSlice raw ls le]
        if height ≤ res1.length then .error res1
        else procTokens raw width height toks res1 (some s) e tokenLen
      | none => procTokens raw width height toks res (some s) e tokenLen
    else
      match ls? with
      | some ls => procTokens raw width height toks res (some ls) e (cl + tokenLen)
      | none => procTokens raw width height toks res (some s) e (cl + tokenLen)

/-- One iteration of the `for raw_line in string.lines()` loop of Rust
`fn wrap_words`: tokenize the line, run the token loop, then flush the
pending leftovers (lines 85–163 of `widget.rs`). -/
def wrapLine (raw : Line) (width height : Nat) (res : List Line) :
    Except (List Line) (List Line) :=
  match procTokens raw width height (tokenize_ascii raw) res none 0 0 with
  | .error r => .error r
  | .ok (res1, ls?, le, _) =>
    match ls? with
    | some ls => .ok (res1 ++ [strSlice raw ls le])
    | none => .ok res1

/-- The outer loop of Rust `fn wrap_words` over the logical lines; an
early `return` inside a line ends the whole function. -/
def wrapLines (width height : Nat) : List Line → List Line → List Line
  | [], res => res
  | raw :: rest, res =>
    match wrapLine raw width height res with
    | .error r => r
    | .ok res1 => wrapLines width height rest res1

/-- Rust `str::split_inclusive('\n')`: pieces of the text, each keeping
its terminating newline; no trailing empty piece. -/
def splitInclusiveNl : List Char → List Line
  | [] => []
  | c :: rest =>
    if c = '\n' then [c] :: splitInclusiveNl rest
    else
      match splitInclusiveNl rest with
      | [] => [[c]]
      | l :: ls => (c :: l) :: ls

/-- The per-piece map of Rust `str::lines`: strip one trailing `'\n'`,
and after it one trailing `'\r'`. -/
def lineMap (l : Line) : Line :=
  if l.getLast? = some '\n' then
    let l1 := l.dropLast
    if l1.getLast? = some '\r' then l1.dropLast else l1
  else l

/-- Rust `str::lines`: logical lines of the text. -/
def rustLines (s : List Char) : List Line :=
  (splitInclusiveNl s).map lineMap

/-- Rust `fn wrap_words(string, size)` of `widget.rs`: the word-wrapped
layout of `string` for a `size.1 × size.2` grid. -/
def wrap_words (string : Line) (size : Nat × Nat) : List Line :=
  wrapLines size.1 size.2 (rustLines string) []

/-- `ratatui::layout::Rect`: all fields are `u16` values. -/
structure Rect where
  x : Nat
  y : Nat
  width : Nat
  height : Nat

/-- The `for line in lines` walk of Rust `InputField::get_cursor_at`
(lines 47–55 of `widget.rs`): place the remaining `index` on the current
physical line, or subtract the line's length and move down; past the
last line, fall back to the bottom-right cell
`(area.x + area.width - 1, area.y + area.height - 1)`.  The `u16` casts
and arithmetic of the source wrap (release mode). -/
def cursorWalk (area : Rect) : List Line → Nat → Nat → Nat × Nat
  | [], _, _ => (wsub1 (wadd area.x area.width), wsub1 (wadd area.y area.height))
  | line :: rest, index, y =>
    if line.length ≤ index then cursorWalk area rest (index - line.length) (y + 1)
    else (wadd area.x (index % U16), wadd area.y (y % U16))

/-- Rust `InputField::get_cursor_at` in `Wrap::Word` mode: empty input
maps to the rectangle origin; otherwise the offset is clamped to the
index of the last character and placed by walking the word-wrap layout. -/
def get_cursor_at (input : Line) (area : Rect) (index : Nat) : Nat × Nat :=
  if input.length = 0 then (area.x, area.y)
  else
    cursorWalk area (wrap_words input (area.width, area.height))
      (min index (input.length - 1)) 0

/-- Width bound on one physical line: at most `w` characters, and
non-empty whenever `w ≥ 1`. -/
def Qline (w : Nat) (l : Line) : Prop := l.length ≤ w ∧ (1 ≤ w → l ≠ [])

/-- Total number of characters the layout represents. -/
def sumLen (L : List Line) : Nat := (L.map List.length).sum

/-! ### Tokenizer lemmas -/

theorem coversB_cons {p total s e : Nat} {ts : List (Nat × Nat)} :
    coversB p total ((s, e) :: ts) = true ↔
      s = p ∧ p < e ∧ coversB e total ts = true := by
  simp only [coversB, Bool.and_eq_true, beq_iff_eq, decide_eq_true_eq]
  tauto

theorem coversB_le : ∀ (ts : List (Nat × Nat)) (p total : Nat),
    coversB p total ts = true → p ≤ total := by
  intro ts
  induction ts with
  | nil => intro p total h; simp only [coversB, beq_iff_eq] at h; omega
  | cons t ts ih =>
    intro p total h
    obtain ⟨s, e⟩ := t
    obtain ⟨hs, hpe, hrest⟩ := coversB_cons.mp h
    have := ih e total hrest
    omega

theorem coversB_mem : ∀ (ts : List (Nat × Nat)) (p total : Nat),
    coversB p total ts = true → ∀ t ∈ ts, p ≤ t.1 ∧ t.1 < t.2 ∧ t.2 ≤ total := by
  intro ts
  induction ts with
  | nil => intro p total _ t ht; simp at ht
  | cons t0 ts ih =>
    obtain ⟨s, e⟩ := t0
    intro p total h t ht
    obtain ⟨hs, hpe, hrest⟩ := coversB_cons.mp h
    rcases List.mem_cons.mp ht with ht | ht
    · subst ht
      have := coversB_le ts e total hrest
      simp; omega
    · have := ih e total hrest t ht
      omega

theorem coversB_locate : ∀ (ts : List (Nat × Nat)) (p total : Nat),
    coversB p total ts = true → ∀ i, p ≤ i → i < total →
      ∃ t ∈ ts, t.1 ≤ i ∧ i < t.2 := by
  intro ts
  induction ts with
  | nil => intro p total h i hpi hit; simp only [coversB, beq_iff_eq] at h; omega
  | cons t0 ts ih =>
    obtain ⟨s, e⟩ := t0
    intro p total h i hpi hit
    obtain ⟨hs, hpe, hrest⟩ := coversB_cons.mp h
    by_cases hie : i < e
    · exact ⟨(s, e), by simp, by simp; omega⟩
    · obtain ⟨t, ht, hle⟩ := ih e total hrest i (by omega) hit
      exact ⟨t, by simp [ht], hle⟩

theorem tokenizeGo_spec (g : Nat → Bool) (total : Nat) :
    ∀ (cs : List Char) (i start : Nat) (inWs : Bool),
      (∀ k, k < cs.length → isWS (cs.getD k ' ') = g (i + k)) →
      start ≤ i →
      i + cs.length = total →
      (∀ j, start ≤ j → j < i → g j = inWs) →
      (start = i → cs ≠ [] → g i = inWs) →
      (start = 0 ∨ g (start - 1) ≠ inWs) →
      coversB start total (tokenizeGo total cs i start inWs) = true ∧
      ∀ t ∈ tokenizeGo total cs i start inWs,
        (∀ j, t.1 ≤ j → j < t.2 → g j = g t.1) ∧ (t.1 = 0 ∨ g (t.1 - 1) ≠ g t.1) := by
  intro cs
  induction cs with
  | nil =>
    intro i start inWs hg hsi htot h4 _ h6
    simp only [List.length_nil, Nat.add_zero] at htot
    by_cases hlt : start < total
    · have hgs : g start = inWs := h4 start le_rfl (by omega)
      constructor
      · simp only [tokenizeGo, if_pos hlt]
        exact coversB_cons.mpr ⟨rfl, hlt, by simp [coversB]⟩
      · intro t ht
        simp only [tokenizeGo, if_pos hlt, List.mem_singleton] at ht
        subst ht
        refine ⟨?_, ?_⟩
        · intro j h1 h2
          simp only at h1 h2 ⊢
          rw [h4 j h1 (by omega), hgs]
        · simp only
          rcases h6 with h | h
          · exact Or.inl h
          · exact Or.inr (by rw [hgs]; exact h)
    · constructor
      · have heq : start = total := by omega
        simp [tokenizeGo, hlt, coversB, heq]
      · intro t ht; simp [tokenizeGo, hlt] at ht
  | cons c cs ih =>
    intro i start inWs hg hsi htot h4 h5 h6
    have hgc : isWS c = g i := by
      have := hg 0 (by simp)
      simpa using this
    have hg' : ∀ k, k < cs.length → isWS (cs.getD k ' ') = g (i + 1 + k) := by
      intro k hk
      have := hg (k + 1) (by simp; omega)
      simp only [List.getD_cons_succ] at this
      rw [this]; ring_nf
    have htot' : (i + 1) + cs.length = total := by
      simp only [List.length_cons] at htot; omega
    by_cases hch : isWS c = inWs
    · -- same class: extend the current token
      have ihr := ih (i + 1) start inWs hg' (by omega) htot'
        (by intro j h1 h2
            rcases Nat.lt_or_ge j i with h | h
            · exact h4 j h1 h
            · have hj : j = i := by omega
              subst hj; rw [← hgc, hch])
        (by intro h; exact absurd h (by omega))
        h6
      have hcond : ¬ (isWS c ≠ inWs) := by simp [hch]
      constructor
      · simpa only [tokenizeGo, if_neg hcond] using ihr.1
      · intro t ht
        simp only [tokenizeGo, if_neg hcond] at ht
        exact ihr.2 t ht
    · -- class change at index i: push (start, i)
      have hne : g i ≠ inWs := by rw [← hgc]; exact hch
      have hstart : start < i := by
        rcases Nat.lt_or_ge start i with h | h
        · exact h
        · have heq : start = i := by omega
          have := h5 heq (by simp)
          exact absurd this hne
      have hgs : g start = inWs := h4 start le_rfl hstart
      have ihr := ih (i + 1) i (isWS c) hg' (by omega) htot'
        (by intro j h1 h2
            have hj : j = i := by omega
            subst hj; rw [hgc])
        (by intro h; exact absurd h (by omega))
        (by right
            rw [h4 (i - 1) (by omega) (by omega), hgc]
            intro hcon
            exact hne (by rw [← hcon]))
      have hcond : (isWS c ≠ inWs) := hch
      constructor
      · simp only [tokenizeGo, if_pos hcond]
        exact coversB_cons.mpr ⟨rfl, hstart, ihr.1⟩
      · intro t ht
        simp only [tokenizeGo, if_pos hcond, List.mem_cons] at ht
        rcases ht with ht | ht
        · subst ht
          refine ⟨?_, ?_⟩
          · intro j h1 h2
            simp only at h1 h2 ⊢
            rw [h4 j h1 h2, hgs]
          · simp only
            rcases h6 with h | h
            · exact Or.inl h
            · exact Or.inr (by rw [hgs]; exact h)
        · exact ihr.2 t ht

theorem tokenize_spec (cs : Line) :
    coversB 0 cs.length (tokenize_ascii cs) = true ∧
    ∀ t ∈ tokenize_ascii cs,
      (∀ j, t.1 ≤ j → j < t.2 → clsAt cs j = clsAt cs t.1) ∧
      (t.1 = 0 ∨ clsAt cs (t.1 - 1) ≠ clsAt cs t.1) := by
  have h := tokenizeGo_spec (clsAt cs) cs.length cs 0 0
    (match cs.head? with
     | some c => isWS c
     | none => false)
    (by intro k hk; simp [clsAt])
    le_rfl (by simp)
    (by intro j h1 h2; omega)
    (by intro _ hne
        match cs, hne with
        | c :: cs, _ => simp [clsAt, isWS])
    (Or.inl rfl)
  exact h

theorem tokenize_covers (cs : Line) :
    coversB 0 cs.length (tokenize_ascii cs) = true := (tokenize_spec cs).1

/-! ### Wrapper lemmas: width bound and non-emptiness of physical lines -/

theorem strSlice_length (raw : Line) (a b : Nat) :
    (strSlice raw a b).length = min (b - a) (raw.length - a) := by
  simp [strSlice]

theorem strSlice_length_le (raw : Line) (a b : Nat) :
    (strSlice raw a b).length ≤ b - a := by
  rw [strSlice_length]; omega

theorem Qline_strSlice {raw : Line} {w a b : Nat} (hlen : b - a ≤ w)
    (hab : 1 ≤ w → a < b ∧ a < raw.length) : Qline w (strSlice raw a b) := by
  constructor
  · exact le_trans (strSlice_length_le _ _ _) hlen
  · intro hw
    obtain ⟨h1, h2⟩ := hab hw
    have hpos : 0 < (strSlice raw a b).length := by rw [strSlice_length]; omega
    exact List.length_pos.mp hpos

theorem Qline_append {w : Nat} {res : List Line} {l : Line}
    (hres : ∀ x ∈ res, Qline w x) (hl : Qline w l) :
    ∀ x ∈ res ++ [l], Qline w x := by
  intro x hx
  rcases List.mem_append.mp hx with hx | hx
  · exact hres x hx
  · rw [List.mem_singleton] at hx; subst hx; exact hl

/-- Statement of the per-line invariants on a wrapper state: every line
produced so far fits in the width (and is non-empty when `w ≥ 1`), the
pending display length is at most `w`, and a pending span `[ls, le)` is
non-empty, no longer than the pending display length, and ends exactly at
the current scan position `p` inside `raw`. -/
def QOutAt (raw : Line) (w p : Nat) :
    Except (List Line) (List Line × Option Nat × Nat × Nat) → Prop
  | .error r => ∀ l ∈ r, Qline w l
  | .ok (res, ls?, le, cl) =>
      (∀ l ∈ res, Qline w l) ∧ cl ≤ w ∧
      ∀ ls, ls? = some ls → ls < le ∧ le - ls ≤ cl ∧ le = p ∧ le ≤ raw.length

theorem chunkLoop_q (raw : Line) (w h e : Nat) (he : e ≤ raw.length) :
    ∀ (fuel pos : Nat) (res : List Line) (ls? : Option Nat) (le cl : Nat),
      cl ≤ w →
      (∀ l ∈ res, Qline w l) →
      (pos < e ∨ ∀ ls, ls? = some ls → ls < le ∧ le - ls ≤ cl ∧ le = e ∧ le ≤ raw.length) →
      QOutAt raw w e (chunkLoop raw w h e fuel pos res ls? le cl) := by
  intro fuel
  induction fuel with
  | zero => intro pos res ls? le cl hcl hres _; exact hres
  | succ fuel ih =>
    intro pos res ls? le cl hcl hres hdisj
    by_cases hpe : pos < e
    · simp only [chunkLoop, if_pos hpe]
      by_cases hchunk : pos + w ≤ e
      · rw [if_pos hchunk]
        have hq : Qline w (strSlice raw pos (min (pos + w) e)) :=
          Qline_strSlice (by omega) (by intro hw; constructor <;> omega)
        have hres1 := Qline_append hres hq
        by_cases hh : h ≤ (res ++ [strSlice raw pos (min (pos + w) e)]).length
        · rw [if_pos hh]; exact hres1
        · rw [if_neg hh]
          exact ih _ _ none 0 cl hcl hres1 (Or.inr (by intro ls hls; cases hls))
      · rw [if_neg hchunk]
        by_cases hh : h ≤ res.length
        · rw [if_pos hh]; exact hres
        · rw [if_neg hh]
          refine ih _ _ (some pos) e (e - pos) (by omega) hres (Or.inr ?_)
          intro ls hls
          injection hls with hls
          subst hls
          omega
    · simp only [chunkLoop, if_neg hpe]
      refine ⟨hres, hcl, ?_⟩
      intro ls hls
      rcases hdisj with hdisj | hdisj
      · exact absurd hdisj hpe
      · exact hdisj ls hls

theorem procTokens_q (raw : Line) (w h : Nat) :
    ∀ (toks : List (Nat × Nat)) (p : Nat) (res : List Line) (ls? : Option Nat) (le cl : Nat),
      coversB p raw.length toks = true →
      cl ≤ w →
      (∀ l ∈ res, Qline w l) →
      (∀ ls, ls? = some ls → ls < le ∧ le - ls ≤ cl ∧ le = p ∧ le ≤ raw.length) →
      QOutAt raw w raw.length (procTokens raw w h toks res ls? le cl) := by
  intro toks
  induction toks with
  | nil =>
    intro p res ls? le cl hcov hcl hres hpend
    simp only [coversB, beq_iff_eq] at hcov
    subst hcov
    exact ⟨hres, hcl, hpend⟩
  | cons t0 toks ih =>
    obtain ⟨s, e⟩ := t0
    intro p res ls? le cl hcov hcl hres hpend
    obtain ⟨hs, hpe, hrest⟩ := coversB_cons.mp hcov
    subst hs
    have he : e ≤ raw.length := coversB_le toks e raw.length hrest
    simp only [procTokens]
    by_cases htr : res.length = usizeSub1 h ∧ ¬ (cl + (e - s) ≤ w)
    · rw [if_pos htr]
      refine Qline_append hres (Qline_strSlice (by omega) ?_)
      intro hw
      match hls : ls?, hpend with
      | none, _ =>
        simp only [hls, Option.getD_none]
        omega
      | some ls0, hpend =>
        obtain ⟨h1, h2, h3, h4⟩ := hpend ls0 rfl
        simp only [Option.getD_some]
        omega
    · rw [if_neg htr]
      by_cases hov : w < e - s
      · rw [if_pos hov]
        match hls : ls? with
        | some ls0 =>
          dsimp only
          obtain ⟨h1, h2, h3, h4⟩ := hpend ls0 rfl
          have hq : Qline w (strSlice raw ls0 le) :=
            Qline_strSlice (by omega) (by intro hw; omega)
          have hres1 := Qline_append hres hq
          by_cases hh : h ≤ (res ++ [strSlice raw ls0 le]).length
          · rw [if_pos hh]; exact hres1
          · rw [if_neg hh]
            have hloop := chunkLoop_q raw w h e he ((e - s) + h + 1) s
              (res ++ [strSlice raw ls0 le]) (some ls0) le cl hcl hres1 (Or.inl (by omega))
            match hres2 : chunkLoop raw w h e ((e - s) + h + 1) s
                (res ++ [strSlice raw ls0 le]) (some ls0) le cl with
            | .error r =>
              rw [hres2] at hloop
              exact hloop
            | .ok (res2, ls2, le2, cl2) =>
              rw [hres2] at hloop
              obtain ⟨hr2, hc2, hp2⟩ := hloop
              exact ih e res2 ls2 le2 cl2 hrest hc2 hr2 hp2
        | none =>
          dsimp only
          have hloop := chunkLoop_q raw w h e he ((e - s) + h + 1) s
            res none le cl hcl hres (Or.inl (by omega))
          match hres2 : chunkLoop raw w h e ((e - s) + h + 1) s res none le cl with
          | .error r =>
            rw [hres2] at hloop
            exact hloop
          | .ok (res2, ls2, le2, cl2) =>
            rw [hres2] at hloop
            obtain ⟨hr2, hc2, hp2⟩ := hloop
            exact ih e res2 ls2 le2 cl2 hrest hc2 hr2 hp2
      · rw [if_neg hov]
        by_cases hfit : ¬ (cl + (e - s) ≤ w)
        · rw [if_pos hfit]
          match hls : ls? with
          | some ls0 =>
            dsimp only
            obtain ⟨h1, h2, h3, h4⟩ := hpend ls0 rfl
            have hq : Qline w (strSlice raw ls0 le) :=
              Qline_strSlice (by omega) (by intro hw; omega)
            have hres1 := Qline_append hres hq
            by_cases hh : h ≤ (res ++ [strSlice raw ls0 le]).length
            · rw [if_pos hh]; exact hres1
            · rw [if_neg hh]
              refine ih e (res ++ [strSlice raw ls0 le]) (some s) e (e - s) hrest
                (by omega) hres1 ?_
              intro ls hls2
              injection hls2 with hls2
              subst hls2
              omega
          | none =>
            dsimp only
            refine ih e res (some s) e (e - s) hrest (by omega) hres ?_
            intro ls hls2
            injection hls2 with hls2
            subst hls2
            omega
        · rw [if_neg hfit]
          push_neg at hfit
          match hls : ls? with
          | some ls0 =>
            dsimp only
            obtain ⟨h1, h2, h3, h4⟩ := hpend ls0 rfl
            refine ih e res (some ls0) e (cl + (e - s)) hrest (by omega) hres ?_
            intro ls hls2
            injection hls2 with hls2
            subst hls2
            omega
          | none =>
            dsimp only
            refine ih e res (some s) e (cl + (e - s)) hrest (by omega) hres ?_
            intro ls hls2
            injection hls2 with hls2
            subst hls2
            omega

theorem wrapLine_q (raw : Line) (w h : Nat) (res : List Line)
    (hres : ∀ l ∈ res, Qline w l) :
    ∀ out, (wrapLine raw w h res = .error out ∨ wrapLine raw w h res = .ok out) →
      ∀ l ∈ out, Qline w l := by
  have hq := procTokens_q raw w h (tokenize_ascii raw) 0 res none 0 0
    (tokenize_covers raw) (Nat.zero_le w) hres (by intro ls hls; cases hls)
  intro out hout
  unfold wrapLine at hout
  match hpt : procTokens raw w h (tokenize_ascii raw) res none 0 0 with
  | .error r =>
    rw [hpt] at hout hq
    rcases hout with hout | hout
    · injection hout with hout; subst hout; exact hq
    · cases hout
  | .ok (res1, ls?, le, cl) =>
    rw [hpt] at hout hq
    obtain ⟨hr1, hc1, hp1⟩ := hq
    match hls : ls? with
    | some ls0 =>
      dsimp only at hout
      rcases hout with hout | hout
      · cases hout
      · injection hout with hout
        subst hout
        obtain ⟨h1, h2, h3, h4⟩ := hp1 ls0 rfl
        exact Qline_append hr1 (Qline_strSlice (by omega) (by intro hw; omega))
    | none =>
      dsimp only at hout
      rcases hout with hout | hout
      · cases hout
      · injection hout with hout; subst hout; exact hr1

theorem wrapLines_q (w h : Nat) :
    ∀ (raws : List Line) (res : List Line), (∀ l ∈ res, Qline w l) →
      ∀ l ∈ wrapLines w h raws res, Qline w l := by
  intro raws
  induction raws with
  | nil => intro res hres; simpa [wrapLines] using hres
  | cons raw raws ih =>
    intro res hres
    simp only [wrapLines]
    match hwl : wrapLine raw w h res with
    | .error r => exact wrapLine_q raw w h res hres r (Or.inl hwl)
    | .ok res1 => exact ih res1 (wrapLine_q raw w h res hres res1 (Or.inr hwl))

/-- Every physical line of a word-wrap layout fits in the width, and is
non-empty whenever the width is positive. -/
theorem wrap_words_q (text : Line) (w h : Nat) :
    ∀ l ∈ wrap_words text (w, h), Qline w l := by
  unfold wrap_words
  exact wrapLines_q w h (rustLines text) [] (by intro l hl; cases hl)

/-! ### `str::lines` on newline-free text -/

theorem splitInclusiveNl_no_nl (s : Line) (h : ∀ c ∈ s, c ≠ '\n') (hne : s ≠ []) :
    splitInclusiveNl s = [s] := by
  induction s with
  | nil => cases hne rfl
  | cons c cs ih =>
    simp only [splitInclusiveNl]
    rw [if_neg (h c (by simp))]
    by_cases hcs : cs = []
    · subst hcs; rfl
    · rw [ih (fun x hx => h x (by simp [hx])) hcs]

theorem lineMap_no_nl (l : Line) (h : ∀ c ∈ l, c ≠ '\n') : lineMap l = l := by
  unfold lineMap
  rw [if_neg ?hcond]
  case hcond =>
    intro hcon
    have hmem : '\n' ∈ l.getLast? := hcon
    obtain ⟨hne, heq⟩ := List.mem_getLast?_eq_getLast hmem
    exact h _ (heq ▸ List.getLast_mem hne) rfl

theorem rustLines_no_nl (s : Line) (h : ∀ c ∈ s, c ≠ '\n') :
    rustLines s = if s = [] then [] else [s] := by
  by_cases hne : s = []
  · subst hne; rfl
  · rw [if_neg hne]
    unfold rustLines
    rw [splitInclusiveNl_no_nl s h hne]
    simp [lineMap_no_nl s h]

/-! ### Layout length bound within a single logical line -/

/-- Result-length invariant: an early return carries at most `hh` lines,
a normal loop exit strictly fewer. -/
def LenOut (hh : Nat) : Except (List Line) (List Line × Option Nat × Nat × Nat) → Prop
  | .error r => r.length ≤ hh
  | .ok (res, _, _, _) => res.length < hh

theorem chunkLoop_len (raw : Line) (w hh e : Nat) :
    ∀ (fuel pos : Nat) (res : List Line) (ls? : Option Nat) (le cl : Nat),
      res.length < hh →
      LenOut hh (chunkLoop raw w hh e fuel pos res ls? le cl) := by
  intro fuel
  induction fuel with
  | zero => intro pos res ls? le cl hres; exact le_of_lt hres
  | succ fuel ih =>
    intro pos res ls? le cl hres
    by_cases hpe : pos < e
    · simp only [chunkLoop, if_pos hpe]
      by_cases hchunk : pos + w ≤ e
      · rw [if_pos hchunk]
        by_cases hh2 : hh ≤ (res ++ [strSlice raw pos (min (pos + w) e)]).length
        · rw [if_pos hh2]
          simp only [LenOut, List.length_append, List.length_singleton]
          omega
        · rw [if_neg hh2]
          refine ih _ _ none 0 cl ?_
          simp only [List.length_append, List.length_singleton] at hh2 ⊢
          omega
      · rw [if_neg hchunk]
        by_cases hh2 : hh ≤ res.length
        · rw [if_pos hh2]; exact le_of_lt hres
        · rw [if_neg hh2]
          exact ih _ _ (some pos) e (e - pos) hres
    · simp only [chunkLoop, if_neg hpe]
      exact hres

theorem procTokens_len (raw : Line) (w hh : Nat) :
    ∀ (toks : List (Nat × Nat)) (res : List Line) (ls? : Option Nat) (le cl : Nat),
      res.length < hh →
      LenOut hh (procTokens raw w hh toks res ls? le cl) := by
  intro toks
  induction toks with
  | nil => intro res ls? le cl hres; exact hres
  | cons t0 toks ih =>
    obtain ⟨s, e⟩ := t0
    intro res ls? le cl hres
    simp only [procTokens]
    by_cases htr : res.length = usizeSub1 hh ∧ ¬ (cl + (e - s) ≤ w)
    · rw [if_pos htr]
      simp only [LenOut, List.length_append, List.length_singleton]
      omega
    · rw [if_neg htr]
      by_cases hov : w < e - s
      · rw [if_pos hov]
        match hls : ls? with
        | some ls0 =>
          dsimp only
          by_cases hh2 : hh ≤ (res ++ [strSlice raw ls0 le]).length
          · rw [if_pos hh2]
            simp only [LenOut, List.length_append, List.length_singleton]
            omega
          · rw [if_neg hh2]
            simp only [List.length_append, List.length_singleton] at hh2
            have hloop := chunkLoop_len raw w hh e ((e - s) + hh + 1) s
              (res ++ [strSlice raw ls0 le]) (some ls0) le cl
              (by simp only [List.length_append, List.length_singleton]; omega)
            match hres2 : chunkLoop raw w hh e ((e - s) + hh + 1) s
                (res ++ [strSlice raw ls0 le]) (some ls0) le cl with
            | .error r => rw [hres2] at hloop; exact hloop
            | .ok (res2, ls2, le2, cl2) =>
              rw [hres2] at hloop
              exact ih res2 ls2 le2 cl2 hloop
        | none =>
          dsimp only
          have hloop := chunkLoop_len raw w hh e ((e - s) + hh + 1) s res none le cl hres
          match hres2 : chunkLoop raw w hh e ((e - s) + hh + 1) s res none le cl with
          | .error r => rw [hres2] at hloop; exact hloop
          | .ok (res2, ls2, le2, cl2) =>
            rw [hres2] at hloop
            exact ih res2 ls2 le2 cl2 hloop
      · rw [if_neg hov]
        by_cases hfit : ¬ (cl + (e - s) ≤ w)
        · rw [if_pos hfit]
          match hls : ls? with
          | some ls0 =>
            dsimp only
            by_cases hh2 : hh ≤ (res ++ [strSlice raw ls0 le]).length
            · rw [if_pos hh2]
              simp only [LenOut, List.length_append, List.length_singleton]
              omega
            · rw [if_neg hh2]
              refine ih _ (some s) e (e - s) ?_
              simp only [List.length_append, List.length_singleton] at hh2 ⊢
              omega
          | none =>
            dsimp only
            exact ih res (some s) e (e - s) hres
        · rw [if_neg hfit]
          match hls : ls? with
          | some ls0 =>
            dsimp only
            exact ih res (some ls0) e (cl + (e - s)) hres
          | none =>
            dsimp only
            exact ih res (some s) e (cl + (e - s)) hres

theorem wrapLine_len (raw : Line) (w hh : Nat) (res : List Line)
    (hres : res.length < hh) :
    ∀ out, (wrapLine raw w hh res = .error out ∨ wrapLine raw w hh res = .ok out) →
      out.length ≤ hh := by
  have hq := procTokens_len raw w hh (tokenize_ascii raw) res none 0 0 hres
  intro out hout
  unfold wrapLine at hout
  match hpt : procTokens raw w hh (tokenize_ascii raw) res none 0 0 with
  | .error r =>
    rw [hpt] at hout hq
    rcases hout with hout | hout
    · injection hout with hout; subst hout; exact hq
    · cases hout
  | .ok (res1, ls?, le, cl) =>
    rw [hpt] at hout hq
    match hls : ls? with
    | some ls0 =>
      dsimp only at hout
      rcases hout with hout | hout
      · cases hout
      · injection hout with hout
        subst hout
        simp only [LenOut] at hq
        simp only [List.length_append, List.length_singleton]
        omega
    | none =>
      dsimp only at hout
      rcases hout with hout | hout
      · cases hout
      · injection hout with hout; subst hout; exact le_of_lt hq

/-! ### Cursor-walk lemmas -/

theorem wsub1_wadd (a b : Nat) (h1 : 1 ≤ b) (h2 : a + b ≤ U16) :
    wsub1 (wadd a b) = a + b - 1 := by
  simp only [wsub1, wadd, U16] at h2 ⊢
  omega

theorem sumLen_cons (l : Line) (rest : List Line) :
    sumLen (l :: rest) = l.length + sumLen rest := by
  simp [sumLen]

theorem cursorWalk_bounds (r : Rect) (hw : 1 ≤ r.width) (hh : 1 ≤ r.height)
    (hxw : r.x + r.width ≤ U16) (hyh : r.y + r.height ≤ U16) :
    ∀ (L : List Line) (idx y0 : Nat),
      (∀ l ∈ L, l.length ≤ r.width ∧ l ≠ []) →
      y0 + L.length ≤ r.height →
      r.x ≤ (cursorWalk r L idx y0).1 ∧ (cursorWalk r L idx y0).1 < r.x + r.width ∧
      r.y ≤ (cursorWalk r L idx y0).2 ∧ (cursorWalk r L idx y0).2 < r.y + r.height := by
  intro L
  induction L with
  | nil =>
    intro idx y0 _ _
    simp only [cursorWalk]
    unfold wsub1 wadd U16
    unfold U16 at hxw hyh
    omega
  | cons l rest ih =>
    intro idx y0 hq hy
    simp only [List.length_cons] at hy
    by_cases hidx : l.length ≤ idx
    · simp only [cursorWalk, if_pos hidx]
      exact ih (idx - l.length) (y0 + 1) (fun x hx => hq x (by simp [hx])) (by omega)
    · simp only [cursorWalk, if_neg hidx]
      have hlw : l.length ≤ r.width := (hq l (by simp)).1
      unfold wadd U16
      unfold U16 at hxw hyh
      omega

theorem cursorWalk_succ (r : Rect) (hw : 1 ≤ r.width) (hxw : r.x + r.width ≤ U16) :
    ∀ (L : List Line) (idx y0 : Nat),
      (∀ l ∈ L, l.length ≤ r.width ∧ l ≠ []) →
      r.y + y0 + L.length ≤ U16 →
      ((cursorWalk r L (idx + 1) y0).1 = (cursorWalk r L idx y0).1 + 1 ∧
       (cursorWalk r L (idx + 1) y0).2 = (cursorWalk r L idx y0).2) ∨
      ((cursorWalk r L (idx + 1) y0).1 = r.x ∧
       (cursorWalk r L (idx + 1) y0).2 = (cursorWalk r L idx y0).2 + 1) ∨
      (sumLen L ≤ idx + 1 ∧
       cursorWalk r L (idx + 1) y0 =
         (wsub1 (wadd r.x r.width), wsub1 (wadd r.y r.height))) := by
  intro L
  induction L with
  | nil =>
    intro idx y0 _ _
    right; right
    exact ⟨by simp [sumLen], rfl⟩
  | cons l rest ih =>
    intro idx y0 hq hy
    simp only [List.length_cons] at hy
    have hlw : l.length ≤ r.width := (hq l (by simp)).1
    by_cases hskip : l.length ≤ idx
    · -- both offsets lie beyond this line
      have hskip1 : l.length ≤ idx + 1 := by omega
      have harith : idx + 1 - l.length = (idx - l.length) + 1 := by omega
      simp only [cursorWalk, if_pos hskip, if_pos hskip1, harith]
      rcases ih (idx - l.length) (y0 + 1)
          (fun x hx => hq x (by simp [hx])) (by omega) with hp | hp | hp
      · exact Or.inl hp
      · exact Or.inr (Or.inl hp)
      · right; right
        refine ⟨?_, hp.2⟩
        rw [sumLen_cons]
        omega
    · by_cases hin : idx + 1 < l.length
      · -- both offsets lie on this line
        have hin1 : ¬ (l.length ≤ idx + 1) := by omega
        simp only [cursorWalk, if_neg hskip, if_neg hin1]
        left
        constructor
        · unfold wadd U16
          unfold U16 at hxw
          omega
        · trivial
      · -- the second offset starts the next line (or falls off the end)
        have hidx1 : l.length ≤ idx + 1 := by omega
        have heq : idx + 1 = l.length := by omega
        simp only [cursorWalk, if_neg hskip, if_pos hidx1]
        match rest, hq with
        | [], _ =>
          right; right
          simp only [cursorWalk]
          refine ⟨?_, trivial⟩
          rw [sumLen_cons]
          simp [sumLen]
          omega
        | l2 :: rest2, hq =>
          simp only [List.length_cons] at hy
          have hl2 : l2 ≠ [] := (hq l2 (by simp)).2
          have hl2pos : 0 < l2.length := List.length_pos.mpr hl2
          have hnotle : ¬ (l2.length ≤ idx + 1 - l.length) := by omega
          simp only [cursorWalk, if_neg hnotle]
          right; left
          constructor
          · unfold wadd U16
            unfold U16 at hxw
            omega
          · unfold wadd U16
            unfold U16 at hxw hy
            omega

/-! ### Concatenation of the layout of a single logical line -/

theorem flatten_append_single (res : List Line) (l : Line) :
    (res ++ [l]).flatten = res.flatten ++ l := by
  simp

theorem take_append_strSlice (raw : Line) (a b : Nat) (hab : a ≤ b) :
    raw.take a ++ strSlice raw a b = raw.take b := by
  unfold strSlice
  rw [show b = a + (b - a) from by omega, List.take_add]
  congr 2
  omega

/-- Concatenation invariant on a wrapper state over a single logical
line: the lines produced so far are exactly the characters of `raw`
before the pending span (before position `p` when there is no pending
span), and an early return produced some prefix of `raw`. -/
def CatOut (raw : Line) (p : Nat) :
    Except (List Line) (List Line × Option Nat × Nat × Nat) → Prop
  | .error r => ∃ k, r.flatten = raw.take k
  | .ok (res, ls?, le, _) =>
      (∀ ls, ls? = some ls → res.flatten = raw.take ls ∧ ls ≤ le ∧ le = p) ∧
      (ls? = none → res.flatten = raw.take p)

theorem chunkLoop_cat (raw : Line) (w h e : Nat) :
    ∀ (fuel pos : Nat) (res : List Line) (ls? : Option Nat) (le cl : Nat),
      (pos < e → res.flatten = raw.take pos) →
      (¬ pos < e →
        (∀ ls, ls? = some ls → res.flatten = raw.take ls ∧ ls ≤ le ∧ le = e) ∧
        (ls? = none → res.flatten = raw.take e)) →
      CatOut raw e (chunkLoop raw w h e fuel pos res ls? le cl) := by
  intro fuel
  induction fuel with
  | zero =>
    intro pos res ls? le cl h1 h2
    by_cases hpe : pos < e
    · exact ⟨pos, h1 hpe⟩
    · match ls? with
      | some ls0 => exact ⟨ls0, ((h2 hpe).1 ls0 rfl).1⟩
      | none => exact ⟨e, (h2 hpe).2 rfl⟩
  | succ fuel ih =>
    intro pos res ls? le cl h1 h2
    by_cases hpe : pos < e
    · simp only [chunkLoop, if_pos hpe]
      have hjoin := h1 hpe
      by_cases hchunk : pos + w ≤ e
      · rw [if_pos hchunk]
        have hmin : min (pos + w) e = pos + w := by omega
        have hjoin1 : (res ++ [strSlice raw pos (min (pos + w) e)]).flatten
            = raw.take (pos + w) := by
          rw [flatten_append_single, hjoin, hmin, take_append_strSlice raw pos (pos + w) (by omega)]
        by_cases hh2 : h ≤ (res ++ [strSlice raw pos (min (pos + w) e)]).length
        · rw [if_pos hh2]
          exact ⟨pos + w, hjoin1⟩
        · rw [if_neg hh2]
          refine ih _ _ none 0 cl ?_ ?_
          · intro hlt
            rw [hjoin1, hmin]
          · intro hnlt
            refine ⟨(by intro ls hcon; cases hcon), fun _ => ?_⟩
            rw [hjoin1]
            congr 1
            omega
      · rw [if_neg hchunk]
        by_cases hh2 : h ≤ res.length
        · rw [if_pos hh2]
          exact ⟨pos, hjoin⟩
        · rw [if_neg hh2]
          have hmin : min (pos + w) e = e := by omega
          refine ih _ _ (some pos) e (e - pos) ?_ ?_
          · intro hlt
            rw [hmin] at hlt
            omega
          · intro _
            refine ⟨?_, by intro hcon; cases hcon⟩
            intro ls hls
            injection hls with hls
            subst hls
            exact ⟨hjoin, by omega, rfl⟩
    · simp only [chunkLoop, if_neg hpe]
      exact h2 hpe

theorem procTokens_cat (raw : Line) (w h : Nat) :
    ∀ (toks : List (Nat × Nat)) (p : Nat) (res : List Line) (ls? : Option Nat) (le cl : Nat),
      coversB p raw.length toks = true →
      (∀ ls, ls? = some ls → res.flatten = raw.take ls ∧ ls ≤ le ∧ le = p) →
      (ls? = none → res.flatten = raw.take p) →
      CatOut raw raw.length (procTokens raw w h toks res ls? le cl) := by
  intro toks
  induction toks with
  | nil =>
    intro p res ls? le cl hcov hsome hnone
    simp only [coversB, beq_iff_eq] at hcov
    subst hcov
    exact ⟨hsome, hnone⟩
  | cons t0 toks ih =>
    obtain ⟨s, e⟩ := t0
    intro p res ls? le cl hcov hsome hnone
    obtain ⟨hs, hpe, hrest⟩ := coversB_cons.mp hcov
    subst hs
    simp only [procTokens]
    by_cases htr : res.length = usizeSub1 h ∧ ¬ (cl + (e - s) ≤ w)
    · rw [if_pos htr]
      match hls : ls? with
      | some ls0 =>
        obtain ⟨hj, hlsle, hle⟩ := hsome ls0 rfl
        refine ⟨min (ls0 + w) e, ?_⟩
        simp only [Option.getD_some]
        rw [flatten_append_single, hj,
          take_append_strSlice raw ls0 (min (ls0 + w) e) (by omega)]
      | none =>
        have hj := hnone rfl
        refine ⟨min (s + w) e, ?_⟩
        simp only [Option.getD_none]
        rw [flatten_append_single, hj,
          take_append_strSlice raw s (min (s + w) e) (by omega)]
    · rw [if_neg htr]
      by_cases hov : w < e - s
      · rw [if_pos hov]
        match hls : ls? with
        | some ls0 =>
          dsimp only
          obtain ⟨hj, hlsle, hle⟩ := hsome ls0 rfl
          have hjoin1 : (res ++ [strSlice raw ls0 le]).flatten = raw.take s := by
            rw [flatten_append_single, hj, take_append_strSlice raw ls0 le hlsle, hle]
          by_cases hh2 : h ≤ (res ++ [strSlice raw ls0 le]).length
          · rw [if_pos hh2]
            exact ⟨s, hjoin1⟩
          · rw [if_neg hh2]
            have hloop := chunkLoop_cat raw w h e ((e - s) + h + 1) s
              (res ++ [strSlice raw ls0 le]) (some ls0) le cl
              (fun _ => hjoin1) (fun hcon => absurd hpe hcon)
            match hres2 : chunkLoop raw w h e ((e - s) + h + 1) s
                (res ++ [strSlice raw ls0 le]) (some ls0) le cl with
            | .error r => rw [hres2] at hloop; exact hloop
            | .ok (res2, ls2, le2, cl2) =>
              rw [hres2] at hloop
              obtain ⟨hl2some, hl2none⟩ := hloop
              exact ih e res2 ls2 le2 cl2 hrest hl2some hl2none
        | none =>
          dsimp only
          have hj := hnone rfl
          have hloop := chunkLoop_cat raw w h e ((e - s) + h + 1) s res none le cl
            (fun _ => hj) (fun hcon => absurd hpe hcon)
          match hres2 : chunkLoop raw w h e ((e - s) + h + 1) s res none le cl with
          | .error r => rw [hres2] at hloop; exact hloop
          | .ok (res2, ls2, le2, cl2) =>
            rw [hres2] at hloop
            obtain ⟨hl2some, hl2none⟩ := hloop
            exact ih e res2 ls2 le2 cl2 hrest hl2some hl2none
      · rw [if_neg hov]
        by_cases hfit : ¬ (cl + (e - s) ≤ w)
        · rw [if_pos hfit]
          match hls : ls? with
          | some ls0 =>
            dsimp only
            obtain ⟨hj, hlsle, hle⟩ := hsome ls0 rfl
            have hjoin1 : (res ++ [strSlice raw ls0 le]).flatten = raw.take s := by
              rw [flatten_append_single, hj, take_append_strSlice raw ls0 le hlsle, hle]
            by_cases hh2 : h ≤ (res ++ [strSlice raw ls0 le]).length
            · rw [if_pos hh2]
              exact ⟨s, hjoin1⟩
            · rw [if_neg hh2]
              refine ih e (res ++ [strSlice raw ls0 le]) (some s) e (e - s) hrest ?_
                (by intro hcon; cases hcon)
              intro ls hls2
              injection hls2 with hls2
              subst hls2
              exact ⟨hjoin1, by omega, rfl⟩
          | none =>
            dsimp only
            refine ih e res (some s) e (e - s) hrest ?_ (by intro hcon; cases hcon)
            intro ls hls2
            injection hls2 with hls2
            subst hls2
            exact ⟨hnone rfl, by omega, rfl⟩
        · rw [if_neg hfit]
          match hls : ls? with
          | some ls0 =>
            dsimp only
            obtain ⟨hj, hlsle, hle⟩ := hsome ls0 rfl
            refine ih e res (some ls0) e (cl + (e - s)) hrest ?_
              (by intro hcon; cases hcon)
            intro ls hls2
            injection hls2 with hls2
            subst hls2
            exact ⟨hj, by omega, rfl⟩
          | none =>
            dsimp only
            refine ih e res (some s) e (cl + (e - s)) hrest ?_
              (by intro hcon; cases hcon)
            intro ls hls2
            injection hls2 with hls2
            subst hls2
            exact ⟨hnone rfl, by omega, rfl⟩

theorem wrapLine_cat (raw : Line) (w h : Nat) :
    (∀ r, wrapLine raw w h [] = .error r → ∃ k, r.flatten = raw.take k) ∧
    (∀ out, wrapLine raw w h [] = .ok out → out.flatten = raw) := by
  have hq := procTokens_cat raw w h (tokenize_ascii raw) 0 [] none 0 0
    (tokenize_covers raw) (by intro ls hls; cases hls) (by intro _; rfl)
  constructor
  · intro r hr
    unfold wrapLine at hr
    match hpt : procTokens raw w h (tokenize_ascii raw) [] none 0 0 with
    | .error r2 =>
      rw [hpt] at hr hq
      injection hr with hr
      subst hr
      exact hq
    | .ok (res1, ls?, le, cl) =>
      rw [hpt] at hr
      match ls? with
      | some ls0 => dsimp only at hr; cases hr
      | none => dsimp only at hr; cases hr
  · intro out hout
    unfold wrapLine at hout
    match hpt : procTokens raw w h (tokenize_ascii raw) [] none 0 0 with
    | .error r2 =>
      rw [hpt] at hout
      cases hout
    | .ok (res1, ls?, le, cl) =>
      rw [hpt] at hout hq
      obtain ⟨hsome, hnone⟩ := hq
      match ls? with
      | some ls0 =>
        dsimp only at hout
        injection hout with hout
        subst hout
        obtain ⟨hj, hlsle, hle⟩ := hsome ls0 rfl
        rw [flatten_append_single, hj, take_append_strSlice raw ls0 le hlsle, hle,
          List.take_length]
      | none =>
        dsimp only at hout
        injection hout with hout
        subst hout
        rw [hnone rfl, List.take_length]

/-! ### The claims -/

/-- Claim C1, corrected.  The claim says `wrap_words` never returns more
than `height` physical lines and short-circuits as soon as `height` lines
exist.  This is false (see `claim_C1_cex`): the end-of-logical-line flush
(line 160–162 of `widget.rs`) is not checked against `height`, so each
logical line can add one unchecked line, and for `height = 0` even a
single line escapes.  Amended: for text forming a single logical line
(no `'\n'`) and `height ≥ 1`, the layout has at most `height` lines. -/
theorem claim_C1_thm : ∀ (text : Line) (w h : Nat),
    AsciiText text → 1 ≤ h → (∀ c ∈ text, c ≠ '\n') →
    (wrap_words text (w, h)).length ≤ h := by
  intro text w h _ hh hnl
  unfold wrap_words
  rw [rustLines_no_nl text hnl]
  by_cases hemp : text = []
  · rw [if_pos hemp]
    simp [wrapLines]
  · rw [if_neg hemp]
    simp only [wrapLines]
    match hwl : wrapLine text w h [] with
    | .error r =>
      exact wrapLine_len text w h [] (by simpa using hh) r (Or.inl hwl)
    | .ok res1 =>
      exact wrapLine_len text w h [] (by simpa using hh) res1 (Or.inr hwl)

/-- Claim C1, counterexample to the claim as stated: with two logical
lines and `height = 1` the layout has 2 > 1 lines, and with `height = 0`
it has 1 > 0 lines. -/
theorem claim_C1_cex :
    wrap_words (("ab\ncd").toList) (5, 1) = [("ab").toList, ("cd").toList] ∧
    ¬ ((wrap_words (("ab\ncd").toList) (5, 1)).length ≤ 1) ∧
    ¬ ((wrap_words (("ab").toList) (5, 0)).length ≤ 0) := by decide

/-- Claim C1 witness. -/
theorem claim_C1_witness :
    (AsciiText (("hello world").toList) ∧ 1 ≤ 3 ∧
      (∀ c ∈ ("hello world").toList, c ≠ '\n')) ∧
    (wrap_words (("hello world").toList) (4, 3)).length ≤ 3 :=
  ⟨⟨by decide, by decide, by decide⟩,
    claim_C1_thm (("hello world").toList) 4 3 (by decide) (by decide) (by decide)⟩

/-- Claim C2, confirmed: every physical line returned by `wrap_words`
has at most `width` characters — including hard-split chunks of overlong
tokens and the truncated final line. -/
theorem claim_C2_thm : ∀ (text : Line) (w h : Nat), AsciiText text →
    ∀ l ∈ wrap_words text (w, h), l.length ≤ w := by
  intro text w h _ l hl
  exact (wrap_words_q text w h l hl).1

/-- Claim C2 witness. -/
theorem claim_C2_witness :
    AsciiText (("A wrap occurs").toList) ∧
    ∀ l ∈ wrap_words (("A wrap occurs").toList) (5, 5), l.length ≤ 5 :=
  ⟨by decide, claim_C2_thm (("A wrap occurs").toList) 5 5 (by decide)⟩

/-- Claim C3, corrected.  As stated ("for every ASCII text … the cursor
lies inside the rectangle") the claim fails: (a) the layout can exceed
`rect.height` lines (multi-logical-line texts, see C1), letting `y` walk
below the rectangle, and (b) the `u16` additions of the source wrap, so
for `rect.x + rect.width > 65536` the `x` coordinate can wrap below
`rect.x`.  See `claim_C3_cex`.  Amended: whenever the layout fits in the
height and the rectangle arithmetic cannot wrap
(`rect.x + rect.width ≤ 2^16`, `rect.y + rect.height ≤ 2^16`), the
cursor is clamped inside the rectangle for every offset. -/
theorem claim_C3_thm : ∀ (text : Line) (r : Rect) (off : Nat),
    AsciiText text → 1 ≤ r.width → 1 ≤ r.height →
    r.x + r.width ≤ U16 → r.y + r.height ≤ U16 →
    (wrap_words text (r.width, r.height)).length ≤ r.height →
    r.x ≤ (get_cursor_at text r off).1 ∧
    (get_cursor_at text r off).1 < r.x + r.width ∧
    r.y ≤ (get_cursor_at text r off).2 ∧
    (get_cursor_at text r off).2 < r.y + r.height := by
  intro text r off _ hw hh hxw hyh hfit
  unfold get_cursor_at
  by_cases hemp : text.length = 0
  · rw [if_pos hemp]
    simp only
    omega
  · rw [if_neg hemp]
    refine cursorWalk_bounds r hw hh hxw hyh _ _ 0 ?_ (by simpa using hfit)
    intro l hl
    have hq := wrap_words_q text r.width r.height l hl
    exact ⟨hq.1, hq.2 hw⟩

/-- Claim C3, counterexample to the claim as stated: at `"ab\ncd"` in a
height-1 rectangle the cursor leaves the rectangle downward
(`y = 2 ≥ rect.y + rect.height = 2`), and at `rect.x = 65535` the
wrapping `u16` addition sends `x` to `0 < rect.x`. -/
theorem claim_C3_cex :
    get_cursor_at (("ab\ncd").toList) ⟨1, 1, 5, 1⟩ 2 = (1, 2) ∧
    ¬ ((2 : Nat) < 1 + 1) ∧
    get_cursor_at (("abc").toList) ⟨65535, 1, 5, 5⟩ 1 = (0, 1) ∧
    ¬ ((65535 : Nat) ≤ 0) := by decide

/-- Claim C3 witness. -/
theorem claim_C3_witness :
    (AsciiText (("A wrap occurs").toList) ∧
      (wrap_words (("A wrap occurs").toList) (5, 5)).length ≤ 5) ∧
    (1 ≤ (get_cursor_at (("A wrap occurs").toList) ⟨1, 1, 5, 5⟩ 3).1 ∧
     (get_cursor_at (("A wrap occurs").toList) ⟨1, 1, 5, 5⟩ 3).1 < 1 + 5 ∧
     1 ≤ (get_cursor_at (("A wrap occurs").toList) ⟨1, 1, 5, 5⟩ 3).2 ∧
     (get_cursor_at (("A wrap occurs").toList) ⟨1, 1, 5, 5⟩ 3).2 < 1 + 5) :=
  ⟨⟨by decide, by decide⟩,
    claim_C3_thm (("A wrap occurs").toList) ⟨1, 1, 5, 5⟩ 3 (by decide) (by decide)
      (by decide) (by decide) (by decide) (by decide)⟩

/-- Claim C4, corrected.  The claim says width 0 or height 0 gives an
empty layout.  False (see `claim_C4_cex`): width 0 hard-splits every
token into empty chunk lines (`wrap_words "a" (0, 2) = ["", ""]`), and
with height 0 the unchecked end-of-line flush still emits a line
(`wrap_words "ab" (5, 0) = ["ab"]`); moreover the source computes
`height - 1` (line 93) which, for `height = 0`, underflows (a panic in a
debug build; this embedding uses release/wrapping semantics, under which
both functions do terminate).  Amended: with width 0 every emitted line
is empty (the layout itself need not be); the empty text gives an empty
layout; and `get_cursor_at` on empty input still returns the origin. -/
theorem claim_C4_thm : ∀ (text : Line) (w h : Nat) (r : Rect) (i : Nat),
    AsciiText text →
    (∀ l ∈ wrap_words text (0, h), l = []) ∧
    wrap_words [] (w, h) = [] ∧
    get_cursor_at [] r i = (r.x, r.y) := by
  intro text w h r i _
  refine ⟨?_, rfl, rfl⟩
  intro l hl
  have hq := (wrap_words_q text 0 h l hl).1
  exact List.length_eq_zero.mp (by omega)

/-- Claim C4, counterexample to the claim as stated: degenerate geometry
does not give the empty layout. -/
theorem claim_C4_cex :
    wrap_words (("a").toList) (0, 2) = [[], []] ∧
    wrap_words (("a").toList) (0, 2) ≠ [] ∧
    wrap_words (("ab").toList) (5, 0) = [("ab").toList] ∧
    wrap_words (("ab").toList) (5, 0) ≠ [] := by decide

/-- Claim C4 witness. -/
theorem claim_C4_witness :
    AsciiText (("a").toList) ∧
    (∀ l ∈ wrap_words (("a").toList) (0, 3), l = []) :=
  ⟨by decide, (claim_C4_thm (("a").toList) 7 3 ⟨0, 0, 1, 1⟩ 0 (by decide)).1⟩

/-- Claim C5, corrected.  The claim allows a deviation from the two step
patterns (same row, `x + 1` / next row, `x` reset) only "across the
forced-truncation boundary".  In fact the fall-back to the bottom-right
cell happens whenever `offset + 1` is past the characters the layout
represents — which also occurs with no truncation at all, e.g. for a
text with a trailing newline (see `claim_C5_cex`).  Amended: under the
same non-degeneracy side conditions as C3, stepping the offset by one
either keeps `y` and increments `x`, or increments `y` and resets `x` to
`rect.x`, or `offset + 1` is at or past the layout's total character
count and the result is the bottom-right cell. -/
theorem claim_C5_thm : ∀ (text : Line) (r : Rect) (off : Nat),
    AsciiText text → 1 ≤ r.width → 1 ≤ r.height →
    r.x + r.width ≤ U16 → r.y + r.height ≤ U16 →
    (wrap_words text (r.width, r.height)).length ≤ r.height →
    off + 1 < text.length →
    ((get_cursor_at text r (off + 1)).1 = (get_cursor_at text r off).1 + 1 ∧
     (get_cursor_at text r (off + 1)).2 = (get_cursor_at text r off).2) ∨
    ((get_cursor_at text r (off + 1)).1 = r.x ∧
     (get_cursor_at text r (off + 1)).2 = (get_cursor_at text r off).2 + 1) ∨
    (sumLen (wrap_words text (r.width, r.height)) ≤ off + 1 ∧
     get_cursor_at text r (off + 1) = (r.x + r.width - 1, r.y + r.height - 1)) := by
  intro text r off _ hw hh hxw hyh hfit hoff
  have hlen : ¬ (text.length = 0) := by omega
  have hmin1 : min off (text.length - 1) = off := by omega
  have hmin2 : min (off + 1) (text.length - 1) = off + 1 := by omega
  unfold get_cursor_at
  rw [if_neg hlen, if_neg hlen, hmin1, hmin2]
  have hq : ∀ l ∈ wrap_words text (r.width, r.height), l.length ≤ r.width ∧ l ≠ [] := by
    intro l hl
    have h2 := wrap_words_q text r.width r.height l hl
    exact ⟨h2.1, h2.2 hw⟩
  have hy : r.y + 0 + (wrap_words text (r.width, r.height)).length ≤ U16 := by
    unfold U16
    unfold U16 at hyh
    omega
  rcases cursorWalk_succ r hw hxw (wrap_words text (r.width, r.height)) off 0 hq hy
    with hp | hp | hp
  · exact Or.inl hp
  · exact Or.inr (Or.inl hp)
  · right; right
    refine ⟨hp.1, ?_⟩
    rw [hp.2, wsub1_wadd r.x r.width hw hxw, wsub1_wadd r.y r.height hh hyh]

/-- Claim C5, counterexample to the claim as stated: for `"ab\n"` the
layout is the single line `"ab"` — only 1 < 5 lines, so the last-line
truncation rule never ran — yet stepping the offset from 1 to 2 (both
below `text.len() - 1 + 1`) jumps from `(2,1)` to the bottom-right cell
`(5,5)`, which is neither of the two allowed patterns. -/
theorem claim_C5_cex :
    (wrap_words (("ab\n").toList) (5, 5)).length = 1 ∧
    get_cursor_at (("ab\n").toList) ⟨1, 1, 5, 5⟩ 1 = (2, 1) ∧
    get_cursor_at (("ab\n").toList) ⟨1, 1, 5, 5⟩ 2 = (5, 5) ∧
    ¬ ((5 : Nat) = 2 + 1 ∧ (5 : Nat) = 1) ∧
    ¬ ((5 : Nat) = 1 ∧ (5 : Nat) = 1 + 1) := by decide

/-- Claim C5 witness. -/
theorem claim_C5_witness :
    (AsciiText (("A wrap occurs").toList) ∧
      (wrap_words (("A wrap occurs").toList) (5, 5)).length ≤ 5 ∧
      0 + 1 < (("A wrap occurs").toList).length) ∧
    (((get_cursor_at (("A wrap occurs").toList) ⟨1, 1, 5, 5⟩ (0 + 1)).1 =
        (get_cursor_at (("A wrap occurs").toList) ⟨1, 1, 5, 5⟩ 0).1 + 1 ∧
      (get_cursor_at (("A wrap occurs").toList) ⟨1, 1, 5, 5⟩ (0 + 1)).2 =
        (get_cursor_at (("A wrap occurs").toList) ⟨1, 1, 5, 5⟩ 0).2) ∨
     ((get_cursor_at (("A wrap occurs").toList) ⟨1, 1, 5, 5⟩ (0 + 1)).1 = 1 ∧
      (get_cursor_at (("A wrap occurs").toList) ⟨1, 1, 5, 5⟩ (0 + 1)).2 =
        (get_cursor_at (("A wrap occurs").toList) ⟨1, 1, 5, 5⟩ 0).2 + 1) ∨
     (sumLen (wrap_words (("A wrap occurs").toList) (5, 5)) ≤ 0 + 1 ∧
      get_cursor_at (("A wrap occurs").toList) ⟨1, 1, 5, 5⟩ (0 + 1) =
        (1 + 5 - 1, 1 + 5 - 1))) :=
  ⟨⟨by decide, by decide, by decide⟩,
    claim_C5_thm (("A wrap occurs").toList) ⟨1, 1, 5, 5⟩ 0 (by decide) (by decide)
      (by decide) (by decide) (by decide) (by decide) (by decide)⟩

/-- Claim C6, confirmed: on empty text the cursor is the rectangle
origin for every offset; on non-empty text every offset at or past
`text.len() - 1` maps to exactly the position of the last character. -/
theorem claim_C6_thm : ∀ (text : Line) (r : Rect) (off : Nat),
    (text = [] → get_cursor_at text r off = (r.x, r.y)) ∧
    (text ≠ [] → text.length - 1 ≤ off →
      get_cursor_at text r off = get_cursor_at text r (text.length - 1)) := by
  intro text r off
  constructor
  · intro hemp
    subst hemp
    rfl
  · intro hne hoff
    have hlen : ¬ (text.length = 0) :=
      fun hcon => hne (List.length_eq_zero.mp hcon)
    unfold get_cursor_at
    rw [if_neg hlen, if_neg hlen]
    have hmin : min off (text.length - 1)
        = min (text.length - 1) (text.length - 1) := by omega
    rw [hmin]

/-- Claim C6 witness. -/
theorem claim_C6_witness :
    (("ok").toList ≠ [] ∧ (("ok").toList).length - 1 ≤ 7) ∧
    get_cursor_at (("ok").toList) ⟨1, 1, 5, 5⟩ 7 =
      get_cursor_at (("ok").toList) ⟨1, 1, 5, 5⟩ ((("ok").toList).length - 1) :=
  ⟨⟨by decide, by decide⟩,
    (claim_C6_thm (("ok").toList) ⟨1, 1, 5, 5⟩ 7).2 (by decide) (by decide)⟩

/-- Claim C7, corrected.  The claim expects the layout
`["A", "wrap", "occur", "s"]`, but the wrapper keeps the whitespace run
that follows a word on the same pending line (`line_end` is extended over
the whitespace token, lines 150–157 of `widget.rs`), so the first two
physical lines carry a trailing space.  Amended: the layout is
`["A ", "wrap ", "occur", "s"]`. -/
theorem claim_C7_thm :
    wrap_words (("A wrap occurs").toList) (5, 5) =
      [("A ").toList, ("wrap ").toList, ("occur").toList, ("s").toList] := by
  decide

/-- Claim C7, counterexample to the claim as stated. -/
theorem claim_C7_cex :
    wrap_words (("A wrap occurs").toList) (5, 5) ≠
      [("A").toList, ("wrap").toList, ("occur").toList, ("s").toList] := by
  decide

/-- Claim C8, confirmed: the five cursor positions of the repository's
own test (`tests.rs`), with `usize::MAX = 2^64 - 1`. -/
theorem claim_C8_thm :
    get_cursor_at (("A wrap occurs").toList) ⟨1, 1, 5, 5⟩ 0 = (1, 1) ∧
    get_cursor_at (("A wrap occurs").toList) ⟨1, 1, 5, 5⟩ 6 = (5, 2) ∧
    get_cursor_at (("A wrap occurs").toList) ⟨1, 1, 5, 5⟩ 12 = (1, 4) ∧
    get_cursor_at (("A wrap occurs").toList) ⟨1, 1, 5, 5⟩ 18446744073709551615 = (1, 4) ∧
    get_cursor_at [] ⟨1, 1, 5, 5⟩ 1 = (1, 1) := by
  decide

/-- Claim C9, confirmed: the tokens of an ASCII line tile `[0, len)`
exactly (in order, contiguous, non-overlapping, non-empty — this is
`coversB`), the empty line gives no tokens, and an interior position
starts a token exactly when the whitespace class changes there. -/
theorem claim_C9_thm : ∀ (cs : Line), AsciiText cs →
    coversB 0 cs.length (tokenize_ascii cs) = true ∧
    (cs = [] → tokenize_ascii cs = []) ∧
    ∀ i, 0 < i → i < cs.length →
      ((∃ t ∈ tokenize_ascii cs, t.1 = i) ↔ clsAt cs i ≠ clsAt cs (i - 1)) := by
  intro cs _
  obtain ⟨hcov, hspec⟩ := tokenize_spec cs
  refine ⟨hcov, ?_, ?_⟩
  · intro hemp
    subst hemp
    rfl
  · intro i hi hilen
    constructor
    · rintro ⟨t, ht, hstart⟩
      obtain ⟨_, hbd⟩ := hspec t ht
      rw [hstart] at hbd
      rcases hbd with hbd | hbd
      · omega
      · exact hbd.symm
    · intro hch
      obtain ⟨t, ht, hle, hlt⟩ :=
        coversB_locate (tokenize_ascii cs) 0 cs.length hcov i (by omega) hilen
      obtain ⟨hom, _⟩ := hspec t ht
      by_cases hti : t.1 = i
      · exact ⟨t, ht, hti⟩
      · exfalso
        have h1 : clsAt cs i = clsAt cs t.1 := hom i hle hlt
        have h2 : clsAt cs (i - 1) = clsAt cs t.1 := hom (i - 1) (by omega) (by omega)
        exact hch (by rw [h1, h2])

/-- Claim C9 witness. -/
theorem claim_C9_witness :
    AsciiText (("a b").toList) ∧
    (coversB 0 (("a b").toList).length (tokenize_ascii (("a b").toList)) = true ∧
     ((("a b").toList) = ([] : Line) → tokenize_ascii (("a b").toList) = []) ∧
     ∀ i, 0 < i → i < (("a b").toList).length →
       ((∃ t ∈ tokenize_ascii (("a b").toList), t.1 = i) ↔
         clsAt (("a b").toList) i ≠ clsAt (("a b").toList) (i - 1))) :=
  ⟨by decide, claim_C9_thm (("a b").toList) (by decide)⟩

/-- Claim C10, confirmed: for a single logical line, concatenating the
physical lines of the layout (whitespace preserved) yields a prefix of
the line; and when the token loop finishes without an early return (no
truncation, no height short-circuit), the concatenation is the whole
line. -/
theorem claim_C10_thm : ∀ (text : Line) (w h : Nat),
    AsciiText text → (∀ c ∈ text, c ≠ '\n') →
    (∃ t, (wrap_words text (w, h)).flatten ++ t = text) ∧
    (∀ out, wrapLine text w h [] = .ok out → out.flatten = text) := by
  intro text w h _ hnl
  constructor
  · unfold wrap_words
    rw [rustLines_no_nl text hnl]
    by_cases hemp : text = []
    · rw [if_pos hemp]
      exact ⟨text, by simp [wrapLines, hemp]⟩
    · rw [if_neg hemp]
      simp only [wrapLines]
      match hwl : wrapLine text w h [] with
      | .error r =>
        obtain ⟨k, hk⟩ := (wrapLine_cat text w h).1 r hwl
        exact ⟨text.drop k, by rw [hk, List.take_append_drop]⟩
      | .ok out =>
        have hfull := (wrapLine_cat text w h).2 out hwl
        exact ⟨[], by simp [wrapLines, hfull]⟩
  · exact (wrapLine_cat text w h).2

/-- Claim C10 witness. -/
theorem claim_C10_witness :
    (AsciiText (("ab cd").toList) ∧ (∀ c ∈ ("ab cd").toList, c ≠ '\n')) ∧
    (∃ t, (wrap_words (("ab cd").toList) (2, 9)).flatten ++ t = ("ab cd").toList) :=
  ⟨⟨by decide, by decide⟩,
    (claim_C10_thm (("ab cd").toList) 2 9 (by decide) (by decide)).1⟩
